import Mathlib

/-!
Verification of the conversation-memory subsystem, the memory compactor, the
aggregator join node and the workflow execution state of the genassist
backend, as a shallow embedding of the Python sources
(`app/modules/workflow/agents/memory.py`,
`app/modules/workflow/agents/memory_compactor.py`,
`app/modules/workflow/engine/nodes/aggregator_node.py`,
`app/modules/workflow/engine/nodes/llm_model_node.py`,
`app/modules/agents/workflow/state.py`).

Conventions of the embedding:
* A conversation history is a chronological (oldest-first) `List Msg`; the
  in-memory backend stores exactly this list, while the durable (Redis)
  backend stores the `lpush` image, i.e. the reversed list (index 0 = newest).
* Redis `LRANGE`/`LLEN` are modelled over that stored list with Redis's
  documented index semantics (negative indices count from the end, out of
  range indices clamp, `start > stop` is empty).
* The pluggable token counter is a parameter `counter : String → Nat`; the
  counted text is the `"role: content"` rendering used by the source.
* JSON values are a small inductive `Json`; the external `json.loads` of the
  Python standard library is a parameter `loads : String → Option Json`
  (`none` models a raised `JSONDecodeError`).
* Python exceptions escaping a function are modelled with `Except Unit`.
-/

namespace Genassist

/-- A conversation message, from `Message` in `memory.py` (`role`, `content`,
`message_type`, `timestamp`).  `to_dict` is the identity in this embedding:
both the object and its dict form carry exactly these four fields. -/
structure Msg where
  role : String
  content : String
  messageType : String
  timestamp : String
  deriving DecidableEq, Repr

/-- Python slice `xs[-k:]` for `k ≥ 1` (also used for `xs[-k:]` with `k ≥ len`):
the last `min k (length xs)` elements. -/
def lastN (xs : List α) (k : Nat) : List α :=
  xs.drop (xs.length - k)

/-- Python slice `xs[a:b]` for non-negative `a`, `b`. -/
def pySlice (xs : List α) (a b : Nat) : List α :=
  (xs.drop a).take (b - a)

/-- Redis `LRANGE key start stop` over the stored list (index 0 = head):
negative indices are offsets from the end, `stop` past the end clamps to the
last element, and an empty interval yields `[]`. -/
def lrange (l : List α) (start stop : Int) : List α :=
  let n : Int := l.length
  let s : Int := if start < 0 then max (n + start) 0 else start
  let e : Int := min (if stop < 0 then n + stop else stop) (n - 1)
  if s > e then []
  else (l.drop s.toNat).take (e - s + 1).toNat

/-- `InMemoryConversationMemory.get_messages` with no role filter: the
`if max_messages:` guard skips the `[-max_messages:]` slice when
`max_messages == 0`, returning the whole history. -/
def inMemGetMessages (msgs : List Msg) (maxMessages : Nat) : List Msg :=
  let filtered := msgs
  if maxMessages ≠ 0 then lastN filtered maxMessages else filtered

/-- `RedisConversationMemory.get_messages` with no role filter, over the
stored (newest-first) list: `LRANGE key 0 (max_messages - 1)`, reverse to
chronological order, then trim to `max_messages` when the guard
`if max_messages and len(messages) > max_messages:` fires. -/
def redisGetMessages (stored : List Msg) (maxMessages : Nat) : List Msg :=
  let fetched := lrange stored 0 ((maxMessages : Int) - 1)
  let chron := fetched.reverse
  if maxMessages ≠ 0 ∧ chron.length > maxMessages then lastN chron maxMessages
  else chron

/-- The durable store's message list after `lpush`ing a chronological history
in order (`add_message` pushes each new message to the front). -/
def lpushAll (msgs : List Msg) : List Msg :=
  msgs.foldl (fun store m => m :: store) []

theorem lpushAll_eq_reverse (msgs : List Msg) : lpushAll msgs = msgs.reverse := by
  unfold lpushAll
  suffices h : ∀ acc : List Msg, msgs.foldl (fun store m => m :: store) acc = msgs.reverse ++ acc by
    have h0 := h []
    rw [List.append_nil] at h0
    exact h0
  induction msgs with
  | nil => intro acc; rfl
  | cons m rest ih => intro acc; simp [List.foldl, ih, List.reverse_cons]

/-- `LRANGE` with non-negative bounds is an ordinary drop/take slice
(the empty-interval and clamping cases collapse into `toNat` arithmetic). -/
theorem lrange_of_nonneg (l : List α) (start stop : Int)
    (hs : 0 ≤ start) (he : 0 ≤ stop) :
    lrange l start stop = (l.drop start.toNat).take ((stop - start + 1).toNat) := by
  unfold lrange
  have hs' : ¬ (start < 0) := by omega
  have he' : ¬ (stop < 0) := by omega
  simp only [hs', he', if_false]
  by_cases hgt : start > min stop ((l.length : Int) - 1)
  · simp only [hgt, if_true]
    by_cases hss : stop < start
    · have : (stop - start + 1).toNat = 0 := by omega
      rw [this, List.take_zero]
    · have hlen : (l.length : Int) ≤ start := by
        rcases le_or_lt stop ((l.length : Int) - 1) with h | h
        · omega
        · have := min_eq_right (le_of_lt h)
          omega
      have hdrop : l.drop start.toNat = [] := by
        apply List.drop_eq_nil_of_le
        omega
      rw [hdrop, List.take_nil]
  · simp only [hgt, if_false]
    rcases le_total stop ((l.length : Int) - 1) with h | h
    · rw [min_eq_left h]
    · rw [min_eq_right h]
      have hlen : (l.drop start.toNat).length = l.length - start.toNat := by
        simp
      rw [List.take_of_length_le (by omega), List.take_of_length_le (by omega)]

/-- `LRANGE l 0 (k-1)` for `k ≥ 1` is `take k`. -/
theorem lrange_zero_take (l : List α) (k : Nat) (hk : 1 ≤ k) :
    lrange l 0 ((k : Int) - 1) = l.take k := by
  rw [lrange_of_nonneg l 0 ((k : Int) - 1) le_rfl (by omega)]
  have h1 : ((0 : Int)).toNat = 0 := rfl
  have h2 : ((k : Int) - 1 - 0 + 1).toNat = k := by omega
  rw [h1, h2, List.drop_zero]

/-- `LRANGE l 0 (-1)` is the whole list: `-1` means "last element". -/
theorem lrange_zero_neg_one (l : List α) : lrange l 0 (-1) = l := by
  unfold lrange
  by_cases hnil : l = []
  · subst hnil; rfl
  · have hlen : 1 ≤ l.length := by
      cases l with
      | nil => exact absurd rfl hnil
      | cons a t => simp
    have h1 : ((-1 : Int) < 0) = True := by simp
    have hmin : min ((l.length : Int) + (-1)) ((l.length : Int) - 1) = (l.length : Int) - 1 := by
      omega
    simp only [h1, if_true, hmin]
    have hgt : ¬ ((if (0 : Int) < 0 then max ((l.length : Int) + 0) 0 else 0) >
        (l.length : Int) - 1) := by
      simp only [if_neg (by omega : ¬ ((0 : Int) < 0))]
      omega
    simp only [if_neg (by omega : ¬ ((0 : Int) < 0)), if_neg (by omega : ¬ ((0 : Int) > (l.length : Int) - 1))]
    have h2 : ((l.length : Int) - 1 - 0 + 1).toNat = l.length := by omega
    rw [h2]
    have h3 : (Int.toNat 0) = 0 := rfl
    rw [h3, List.drop_zero, List.take_length]

/-- Sample messages used for concrete witnesses and counterexamples. -/
def mA : Msg := ⟨"user", "hello", "text", "t0"⟩

def mB : Msg := ⟨"assistant", "hi there", "text", "t1"⟩

def mC : Msg := ⟨"user", "how are you?", "text", "t2"⟩

/-- The durable backend's `get_messages` agrees with the in-memory one on the
`lpush` image of the same chronological history, for every `max_messages`. -/
theorem redisGetMessages_eq_inMem (msgs : List Msg) (N : Nat) :
    redisGetMessages (lpushAll msgs) N = inMemGetMessages msgs N := by
  rw [lpushAll_eq_reverse]
  simp only [redisGetMessages, inMemGetMessages]
  by_cases hN : N = 0
  · subst hN
    have hneg : ((0 : Nat) : Int) - 1 = -1 := by norm_num
    rw [hneg, lrange_zero_neg_one]
    simp
  · have h1 : 1 ≤ N := Nat.one_le_iff_ne_zero.mpr hN
    rw [lrange_zero_take _ _ h1, List.take_reverse, List.reverse_reverse]
    have hle : ¬ ((msgs.drop (msgs.length - N)).length > N) := by
      simp only [List.length_drop]; omega
    simp only [hN, hle, and_false, if_false, ne_eq, not_false_iff, if_true]
    rfl

/-- C2 (counterexample): with one stored message and `N = 0`, both backends
return that message rather than `min(0, 1) = 0` messages — the
`if max_messages:` guard treats `0` as "no limit". -/
theorem C2_message_count_zero_counterexample :
    (inMemGetMessages [mA] 0).length ≠ min 0 ([mA] : List Msg).length ∧
    (redisGetMessages (lpushAll [mA]) 0).length ≠ min 0 ([mA] : List Msg).length := by
  constructor <;> decide

/-- C2 (amended): for every history and every `N ≥ 1`, `get_messages` with
`max_messages = N` and no role filter returns exactly the last
`min(N, total)` messages in chronological order on both backends; with
`N = 0` both backends return the entire history instead of zero messages. -/
theorem C2_message_count (msgs : List Msg) (N : Nat) :
    (1 ≤ N →
      inMemGetMessages msgs N = lastN msgs N ∧
      redisGetMessages (lpushAll msgs) N = lastN msgs N ∧
      (lastN msgs N).length = min N msgs.length ∧
      lastN msgs N <:+ msgs) ∧
    (inMemGetMessages msgs 0 = msgs ∧ redisGetMessages (lpushAll msgs) 0 = msgs) := by
  constructor
  · intro hN
    have hmem : inMemGetMessages msgs N = lastN msgs N := by
      unfold inMemGetMessages
      rw [if_pos (by omega)]
    refine ⟨hmem, ?_, ?_, ?_⟩
    · rw [redisGetMessages_eq_inMem, hmem]
    · unfold lastN
      simp only [List.length_drop]
      omega
    · exact List.drop_suffix _ _
  · have hmem : inMemGetMessages msgs 0 = msgs := by
      unfold inMemGetMessages
      rw [if_neg (by omega)]
    exact ⟨hmem, by rw [redisGetMessages_eq_inMem, hmem]⟩

/-- C2 witness: a three-message history with `N = 2` returns the two most
recent messages on both backends. -/
theorem C2_message_count_witness :
    inMemGetMessages [mA, mB, mC] 2 = [mB, mC] ∧
    redisGetMessages (lpushAll [mA, mB, mC]) 2 = [mB, mC] := by
  have h := (C2_message_count [mA, mB, mC] 2).1 (by omega)
  exact ⟨h.1.trans rfl, h.2.1.trans rfl⟩

/-- A JSON value, as handled by the Python `json` module.  Numbers are
restricted to the non-negative integers actually stored by this code
(message counts). -/
inductive Json where
  | null
  | bool (b : Bool)
  | num (n : Nat)
  | str (s : String)
  | arr (elems : List Json)
  | obj (entries : List (String × Json))

/-- Python `dict` lookup `d.get(k)` over an insertion-ordered association
list whose keys are unique (as `dict` guarantees). -/
def dictGet? [DecidableEq κ] : List (κ × β) → κ → Option β
  | [], _ => none
  | (k', v') :: rest, k => if k' = k then some v' else dictGet? rest k

/-- Python `dict` assignment `d[k] = v`: replace the value of an existing key
in place, else append the new key at the end. -/
def dictSet [DecidableEq κ] : List (κ × β) → κ → β → List (κ × β)
  | [], k, v => [(k, v)]
  | (k', v') :: rest, k, v =>
    if k' = k then (k, v) :: rest else (k', v') :: dictSet rest k v

/-- Python truthiness of a JSON-derived value. -/
def Json.truthy : Json → Bool
  | Json.null => false
  | Json.bool b => b
  | Json.num n => n != 0
  | Json.str s => s != ""
  | Json.arr xs => !xs.isEmpty
  | Json.obj kvs => !kvs.isEmpty

/-- Truthiness of a `dict.get` result (`None` for an absent key is falsy). -/
def truthyOpt : Option Json → Bool
  | some j => j.truthy
  | none => false

/-- A compacted summary is stored as a JSON object (a Python dict). -/
abbrev SummaryObj := List (String × Json)

/-- `summary.get("compacted_message_count", 0)`.  The compactor only ever
stores a non-negative integer under this key; the wildcard arm realises the
default `0` for an absent key. -/
def sumCount (s : SummaryObj) : Nat :=
  match dictGet? s "compacted_message_count" with
  | some (Json.num n) => n
  | _ => 0

/-- The compaction start index: `summary.get("compacted_message_count", 0)`
when a summary exists, else `0` (both backends compute it identically). -/
def startIndexOf (summary : Option SummaryObj) : Nat :=
  match summary with
  | some s => sumCount s
  | none => 0

/-- `InMemoryConversationMemory.get_messages_for_compaction`:
`split_index = max(start_index, total - keep_recent)`; if nothing new to
compact return `([], last keep_recent)`, else
`(messages[start_index:split_index], last keep_recent)` (the recent part is
`[]` when `keep_recent == 0`). -/
def inMemGetMessagesForCompaction (msgs : List Msg) (summary : Option SummaryObj)
    (keep : Nat) : List Msg × List Msg :=
  let total := msgs.length
  let start := startIndexOf summary
  let split := max start (total - keep)
  if split ≤ start then
    ([], if 0 < keep then lastN msgs keep else [])
  else
    (pySlice msgs start split, if 0 < keep then lastN msgs keep else [])

/-- `RedisConversationMemory.get_messages_for_compaction`: same split
computation over `LLEN`, then
`LRANGE key (total - split_index) (total - start_index - 1)` reversed to
chronological order; the recent part is `get_messages(max_messages=keep)`. -/
def redisGetMessagesForCompaction (stored : List Msg) (summary : Option SummaryObj)
    (keep : Nat) : List Msg × List Msg :=
  let total := stored.length
  let start := startIndexOf summary
  let split := max start (total - keep)
  if split ≤ start then
    ([], redisGetMessages stored keep)
  else
    ((lrange stored ((total : Int) - (split : Int)) ((total : Int) - (start : Int) - 1)).reverse,
      redisGetMessages stored keep)

/-- The push-to-front round trip for a non-empty chronological range:
fetching `[total - split, total - start - 1]` from the reversed list and
reversing recovers `l[start:split]`. -/
theorem reversed_lrange_slice (l : List α) (start split : Nat)
    (h1 : start < split) (h2 : split ≤ l.length) :
    (lrange l.reverse ((l.length : Int) - split) ((l.length : Int) - start - 1)).reverse
      = pySlice l start split := by
  rw [lrange_of_nonneg _ _ _ (by omega) (by omega)]
  have ha : ((l.length : Int) - split).toNat = l.length - split := by omega
  have hb : (((l.length : Int) - start - 1) - ((l.length : Int) - split) + 1).toNat
      = split - start := by omega
  rw [ha, hb, List.drop_reverse]
  have hc : l.length - (l.length - split) = split := by omega
  rw [hc, List.take_reverse]
  have hd : (l.take split).length = split := by
    rw [List.length_take]; omega
  rw [hd]
  have he : split - (split - start) = start := by omega
  rw [he, List.reverse_reverse, List.drop_take]
  rfl

/-- C1 (counterexample): the claim quantifies over all
`0 ≤ start_index ≤ split_index ≤ total`, but at the degenerate range
`start_index = split_index = total = 1` the formula asks Redis for indices
`0 .. -1`, and `-1` means "last element", so the whole one-element list comes
back instead of the empty chronological slice `[1, 1)`. -/
theorem C1_roundtrip_counterexample :
    (lrange (lpushAll [mA]) ((1 : Int) - 1) ((1 : Int) - 1 - 1)).reverse
      ≠ pySlice [mA] 1 1 := by
  decide

/-- C1 (amended): for every non-empty chronological range
`0 ≤ start_index < split_index ≤ total`, fetching
`redis_start = total - split_index .. redis_end = total - start_index - 1`
from the push-to-front list and reversing yields exactly the chronological
slice `[start_index, split_index)`; and `get_messages_for_compaction` on the
durable backend returns as its to-compact list exactly the messages at
chronological positions `[already_compacted, total - keep_recent)` (the code
guards the degenerate empty range and never feeds it to the formula). -/
theorem C1_durable_roundtrip :
    (∀ (l : List Msg) (start split : Nat), start < split → split ≤ l.length →
      (lrange (lpushAll l) ((l.length : Int) - split) ((l.length : Int) - start - 1)).reverse
        = pySlice l start split) ∧
    (∀ (msgs : List Msg) (summary : Option SummaryObj) (keep : Nat),
      (redisGetMessagesForCompaction (lpushAll msgs) summary keep).1
        = pySlice msgs (startIndexOf summary) (msgs.length - keep)) := by
  constructor
  · intro l start split h1 h2
    rw [lpushAll_eq_reverse]
    exact reversed_lrange_slice l start split h1 h2
  · intro msgs summary keep
    rw [lpushAll_eq_reverse]
    simp only [redisGetMessagesForCompaction, List.length_reverse]
    by_cases hsplit : max (startIndexOf summary) (msgs.length - keep) ≤ startIndexOf summary
    · rw [if_pos hsplit]
      have : msgs.length - keep - startIndexOf summary = 0 := by omega
      simp only [pySlice, this, List.take_zero]
    · rw [if_neg hsplit]
      have hlt : startIndexOf summary < msgs.length - keep := by omega
      have hmax : max (startIndexOf summary) (msgs.length - keep) = msgs.length - keep := by
        omega
      rw [hmax]
      have := reversed_lrange_slice msgs (startIndexOf summary) (msgs.length - keep)
        hlt (by omega)
      simpa using this

/-- C1 witness: the chronological range `[1, 3)` of a three-message history
is recovered exactly through the push-to-front formula. -/
theorem C1_durable_roundtrip_witness :
    (lrange (lpushAll [mA, mB, mC]) ((([mA, mB, mC] : List Msg).length : Int) - 3)
        ((([mA, mB, mC] : List Msg).length : Int) - 1 - 1)).reverse
      = pySlice [mA, mB, mC] 1 3 :=
  C1_durable_roundtrip.1 [mA, mB, mC] 1 3 (by omega) (by decide)

/-- The token count of one message: the pluggable counter applied to the
`f"{role}: {content}"` rendering used by both backends. -/
def countMsg (counter : String → Nat) (m : Msg) : Nat :=
  counter (m.role ++ ": " ++ m.content)

/-- Counted token total of a list of messages. -/
def tokenSum (counter : String → Nat) (l : List Msg) : Nat :=
  (l.map (countMsg counter)).sum

/-- The shared newest→oldest selection loop of
`get_chat_history_within_tokens` (identical in both backends): walk the
newest-first list appending messages to `sel` while the running total stays
within budget; when a message would exceed it, force-include it only if
nothing was selected yet, then stop.  The caller reverses the result. -/
def withinLoop (counter : String → Nat) (budget : Int) :
    List Msg → List Msg → Nat → List Msg
  | [], sel, _ => sel
  | m :: rest, sel, cur =>
    let t := countMsg counter m
    if ((cur + t : Nat) : Int) > budget then
      (if sel.isEmpty then sel ++ [m] else sel)
    else withinLoop counter budget rest (sel ++ [m]) (cur + t)

/-- `InMemoryConversationMemory.get_chat_history_within_tokens` (list form):
raises `ValueError` when `token_budget <= 0`, else runs the selection loop
over `reversed(self.messages)` and reverses back to chronological order. -/
def inMemWithinTokens (counter : String → Nat) (msgs : List Msg) (budget : Int) :
    Except Unit (List Msg) :=
  if budget ≤ 0 then Except.error ()
  else Except.ok (withinLoop counter budget msgs.reverse [] 0).reverse

/-- `RedisConversationMemory.get_chat_history_within_tokens` (list form):
returns `[]` when `token_budget <= 0`, fetches only the newest
`batch_size = 50` entries with `LRANGE key 0 49`, returns `[]` when the
fetch is empty, else runs the same selection loop and reverses. -/
def redisWithinTokens (counter : String → Nat) (stored : List Msg) (budget : Int) :
    List Msg :=
  if budget ≤ 0 then []
  else
    let batch := lrange stored 0 ((50 : Int) - 1)
    if batch.isEmpty then []
    else (withinLoop counter budget batch [] 0).reverse

theorem withinLoop_shape (counter : String → Nat) (budget : Int) :
    ∀ (rev sel : List Msg) (cur : Nat),
      ∃ n, n ≤ rev.length ∧ withinLoop counter budget rev sel cur = sel ++ rev.take n := by
  intro rev
  induction rev with
  | nil => intro sel cur; exact ⟨0, by omega, by simp [withinLoop]⟩
  | cons m rest ih =>
    intro sel cur
    simp only [withinLoop]
    by_cases hc : ((cur + countMsg counter m : Nat) : Int) > budget
    · rw [if_pos hc]
      by_cases hsel : sel.isEmpty
      · exact ⟨1, by simp, by rw [if_pos hsel]; simp⟩
      · exact ⟨0, by omega, by rw [if_neg hsel]; simp⟩
    · rw [if_neg hc]
      obtain ⟨n, hn, heq⟩ := ih (sel ++ [m]) (cur + countMsg counter m)
      exact ⟨n + 1, by simpa using hn, by rw [heq]; simp⟩

theorem withinLoop_ne_nil (counter : String → Nat) (budget : Int) :
    ∀ (rev sel : List Msg) (cur : Nat), sel ≠ [] ∨ rev ≠ [] →
      withinLoop counter budget rev sel cur ≠ [] := by
  intro rev
  induction rev with
  | nil =>
    intro sel cur h
    rcases h with h | h
    · simpa [withinLoop] using h
    · exact absurd rfl h
  | cons m rest ih =>
    intro sel cur _
    simp only [withinLoop]
    by_cases hc : ((cur + countMsg counter m : Nat) : Int) > budget
    · rw [if_pos hc]
      by_cases hsel : sel.isEmpty
      · rw [if_pos hsel]; simp
      · rw [if_neg hsel]
        simpa [List.isEmpty_iff] using hsel
    · rw [if_neg hc]
      exact ih (sel ++ [m]) _ (Or.inl (by simp))

theorem withinLoop_budget (counter : String → Nat) (budget : Int) :
    ∀ (rev sel : List Msg) (cur : Nat),
      cur = tokenSum counter sel → ((cur : Nat) : Int) ≤ budget →
      ((tokenSum counter (withinLoop counter budget rev sel cur) : Nat) : Int) ≤ budget ∨
        (sel = [] ∧ ∃ m rest, rev = m :: rest ∧
          withinLoop counter budget rev sel cur = [m] ∧
          budget < ((countMsg counter m : Nat) : Int)) := by
  intro rev
  induction rev with
  | nil =>
    intro sel cur hsum hle
    left
    simpa [withinLoop, ← hsum] using hle
  | cons m rest ih =>
    intro sel cur hsum hle
    simp only [withinLoop]
    by_cases hc : ((cur + countMsg counter m : Nat) : Int) > budget
    · rw [if_pos hc]
      by_cases hsel : sel.isEmpty
      · right
        have hsel' : sel = [] := List.isEmpty_iff.mp hsel
        refine ⟨hsel', m, rest, rfl, by rw [if_pos hsel, hsel']; rfl, ?_⟩
        have h0 : cur = 0 := by
          rw [hsum, hsel']; rfl
        rw [h0] at hc
        push_cast at hc ⊢
        omega
      · left
        rw [if_neg hsel, ← hsum]
        exact hle
    · rw [if_neg hc]
      have hsum' : cur + countMsg counter m = tokenSum counter (sel ++ [m]) := by
        simp [tokenSum, hsum]
      have hle' : ((cur + countMsg counter m : Nat) : Int) ≤ budget := by omega
      rcases ih (sel ++ [m]) (cur + countMsg counter m) hsum' hle' with h | h
      · exact Or.inl h
      · exact absurd h.1 (by simp)

theorem tokenSum_reverse (counter : String → Nat) (l : List Msg) :
    tokenSum counter l.reverse = tokenSum counter l := by
  simp [tokenSum, List.sum_reverse]

/-- Core correctness of the selection loop run over a reversed non-empty
history: the chronological result is a non-empty suffix whose counted total
fits the budget except when the single newest message alone exceeds it. -/
theorem within_core (counter : String → Nat) (budget : Int) (msgs : List Msg)
    (hm : msgs ≠ []) (hb : 0 < budget) :
    (withinLoop counter budget msgs.reverse [] 0).reverse ≠ [] ∧
    (withinLoop counter budget msgs.reverse [] 0).reverse <:+ msgs ∧
    (((tokenSum counter (withinLoop counter budget msgs.reverse [] 0).reverse : Nat) : Int) ≤ budget ∨
      ∃ m, msgs.getLast? = some m ∧
        (withinLoop counter budget msgs.reverse [] 0).reverse = [m] ∧
        budget < ((countMsg counter m : Nat) : Int)) := by
  refine ⟨?_, ?_, ?_⟩
  · intro h
    have := withinLoop_ne_nil counter budget msgs.reverse [] 0
      (Or.inr (by simpa using hm))
    exact this (by simpa using h)
  · obtain ⟨n, hn, heq⟩ := withinLoop_shape counter budget msgs.reverse [] 0
    rw [heq]
    simp only [List.nil_append, List.take_reverse, List.reverse_reverse]
    exact List.drop_suffix _ _
  · have hz : (0 : Nat) = tokenSum counter [] := rfl
    rcases withinLoop_budget counter budget msgs.reverse [] 0 hz (by simpa using le_of_lt hb)
      with h | ⟨_, m, rest, hrev, hres, hcnt⟩
    · left
      rw [tokenSum_reverse]
      exact h
    · right
      refine ⟨m, ?_, by rw [hres]; rfl, hcnt⟩
      rw [← List.head?_reverse, hrev]
      rfl

/-- C3: for every non-empty history and positive budget,
`get_chat_history_within_tokens` on both backends returns a non-empty
chronological suffix of the history whose counted token total never exceeds
the budget, except that when even the single most recent message alone
exceeds the budget it is force-included and returned on its own. -/
theorem C3_token_budget (counter : String → Nat) (msgs : List Msg) (budget : Int)
    (hm : msgs ≠ []) (hb : 0 < budget) :
    (∃ l, inMemWithinTokens counter msgs budget = Except.ok l ∧
      l ≠ [] ∧ l <:+ msgs ∧
      (((tokenSum counter l : Nat) : Int) ≤ budget ∨
        ∃ m, msgs.getLast? = some m ∧ l = [m] ∧
          budget < ((countMsg counter m : Nat) : Int))) ∧
    (redisWithinTokens counter (lpushAll msgs) budget ≠ [] ∧
      redisWithinTokens counter (lpushAll msgs) budget <:+ msgs ∧
      (((tokenSum counter (redisWithinTokens counter (lpushAll msgs) budget) : Nat) : Int) ≤ budget ∨
        ∃ m, msgs.getLast? = some m ∧
          redisWithinTokens counter (lpushAll msgs) budget = [m] ∧
          budget < ((countMsg counter m : Nat) : Int))) := by
  have hnotle : ¬ (budget ≤ 0) := by omega
  constructor
  · refine ⟨(withinLoop counter budget msgs.reverse [] 0).reverse, ?_, ?_⟩
    · unfold inMemWithinTokens
      rw [if_neg hnotle]
    · exact within_core counter budget msgs hm hb
  · -- the durable backend runs the same loop over the newest 50 messages
    have hbatch : lrange (lpushAll msgs) 0 ((50 : Int) - 1)
        = (msgs.drop (msgs.length - 50)).reverse := by
      rw [lpushAll_eq_reverse]
      have h50 : ((50 : Nat) : Int) - 1 = (50 : Int) - 1 := by norm_num
      rw [← h50, lrange_zero_take _ 50 (by omega), List.take_reverse]
    set msgs' := msgs.drop (msgs.length - 50) with hmsgs'
    have hm' : msgs' ≠ [] := by
      rw [hmsgs']
      intro h
      have hlen := congrArg List.length h
      simp only [List.length_drop, List.length_nil] at hlen
      have : msgs.length ≠ 0 := fun h0 => hm (List.length_eq_zero.mp h0)
      omega
    have hsuffix : msgs' <:+ msgs := List.drop_suffix _ _
    have hresult : redisWithinTokens counter (lpushAll msgs) budget
        = (withinLoop counter budget msgs'.reverse [] 0).reverse := by
      unfold redisWithinTokens
      rw [if_neg hnotle]
      simp only [hbatch]
      rw [if_neg (by simpa [List.isEmpty_iff] using hm')]
    obtain ⟨hne, hsuf, hbud⟩ := within_core counter budget msgs' hm' hb
    refine ⟨by rw [hresult]; exact hne, by rw [hresult]; exact hsuf.trans hsuffix, ?_⟩
    rcases hbud with h | ⟨m, hlast, hres, hcnt⟩
    · left
      rw [hresult]
      exact h
    · right
      refine ⟨m, ?_, by rw [hresult]; exact hres, hcnt⟩
      obtain ⟨pre, hpre⟩ := hsuffix
      rw [← hpre, List.getLast?_append_of_ne_nil pre hm']
      exact hlast

/-- C3 witness: the guarantees hold concretely for a three-message history
with the character-length counter under a budget of `21`. -/
theorem C3_token_budget_witness :
    (∃ l, inMemWithinTokens String.length [mA, mB, mC] 21 = Except.ok l ∧
      l ≠ [] ∧ l <:+ [mA, mB, mC] ∧
      (((tokenSum String.length l : Nat) : Int) ≤ 21 ∨
        ∃ m, ([mA, mB, mC] : List Msg).getLast? = some m ∧ l = [m] ∧
          (21 : Int) < ((countMsg String.length m : Nat) : Int))) ∧
    (redisWithinTokens String.length (lpushAll [mA, mB, mC]) 21 ≠ [] ∧
      redisWithinTokens String.length (lpushAll [mA, mB, mC]) 21 <:+ [mA, mB, mC] ∧
      (((tokenSum String.length (redisWithinTokens String.length (lpushAll [mA, mB, mC]) 21) : Nat) : Int) ≤ 21 ∨
        ∃ m, ([mA, mB, mC] : List Msg).getLast? = some m ∧
          redisWithinTokens String.length (lpushAll [mA, mB, mC]) 21 = [m] ∧
          (21 : Int) < ((countMsg String.length m : Nat) : Int))) :=
  C3_token_budget String.length [mA, mB, mC] 21 (by decide) (by omega)

/-- Python's regex `\s` class (whitespace as matched by `re`). -/
def pyIsSpace (c : Char) : Bool :=
  c == ' ' || c == '\t' || c == '\n' || c == '\r' || c == '\x0b' || c == '\x0c'

/-- The backquote character of a Markdown code fence. -/
def tick : Char := Char.ofNat 96

/-- Does the character list start with a three-backquote fence? -/
def isFence : List Char → Bool
  | a :: b :: c :: _ => a == tick && b == tick && c == tick
  | _ => false

/-- The lazy group `(\{.*?\})` after the opening brace: scan forward and stop
at the first `}` that is followed by `\s*` and a closing fence (this is
exactly what the non-greedy `.*?` of `_parse_llm_response`'s first regex
matches under `re.DOTALL`).  `acc` holds the reversed body read so far. -/
def lazyFenceBody : List Char → List Char → Option (List Char)
  | [], _ => none
  | c :: rest, acc =>
    if c == '}' && isFence (rest.dropWhile pyIsSpace) then
      some ((c :: acc).reverse)
    else lazyFenceBody rest (c :: acc)

/-- Try to match ```` ```(?:json)?\s*(\{.*?\})\s*``` ```` at this exact
position; returns the brace-delimited group on success. -/
def fenceAt (l : List Char) : Option (List Char) :=
  match l with
  | a :: b :: c :: rest =>
    if a == tick && b == tick && c == tick then
      let rest2 :=
        match rest with
        | 'j' :: 's' :: 'o' :: 'n' :: r => r
        | _ => rest
      let rest3 := rest2.dropWhile pyIsSpace
      match rest3 with
      | '{' :: body => (lazyFenceBody body ['{'])
      | _ => none
    else none
  | _ => none

/-- Leftmost search of the fenced-JSON regex, as `re.search` does. -/
def fencedExtract : List Char → Option (List Char)
  | [] => none
  | c :: rest =>
    match fenceAt (c :: rest) with
    | some b => some b
    | none => fencedExtract rest

/-- The fallback regex `\{.*\}` with `re.DOTALL`: from the first `{` of the
text, greedily through the last `}` (a match needs that `}` after the `{`). -/
def braceSpan (l : List Char) : Option (List Char) :=
  let fromBrace := l.dropWhile (fun c => c != '{')
  let upto := fromBrace.reverse.dropWhile (fun c => c != '}')
  if 2 ≤ upto.length then some upto.reverse else none

/-- `_parse_llm_response`'s extraction order: fenced block first, else the
first raw `{...}` span. -/
def extractJson (s : String) : Option String :=
  match fencedExtract s.data with
  | some b => some (String.mk b)
  | none => (braceSpan s.data).map String.mk

/-- `MemoryCompactor._parse_llm_response`: extract a JSON candidate, decode
it, and require the `entities` and `prose_summary` keys; every failure is a
raised `ValueError`/`JSONDecodeError` (`Except.error`).  `loads` is the
external `json.loads`; a decoded non-object also lands in the error arm
(the following item assignments in `compact_messages` would raise inside
the same `try`). -/
def parseLLMResponse (loads : String → Option Json) (content : String) :
    Except Unit SummaryObj :=
  match extractJson content with
  | none => Except.error ()
  | some js =>
    match loads js with
    | some (Json.obj entries) =>
      if (dictGet? entries "entities").isSome ∧ (dictGet? entries "prose_summary").isSome then
        Except.ok entries
      else Except.error ()
    | _ => Except.error ()

/-- `MemoryCompactor._empty_summary`. -/
def emptySummaryObj : SummaryObj :=
  [("entities", Json.arr []), ("prose_summary", Json.str ""),
   ("compacted_message_count", Json.num 0),
   ("compacted_until_timestamp", Json.null),
   ("last_compaction_timestamp", Json.null)]

/-- Python `len()` of a JSON-derived value: strings, lists and dicts are
sized; numbers, booleans and `None` raise `TypeError`. -/
def pyLen? : Json → Option Nat
  | Json.str s => some s.length
  | Json.arr xs => some xs.length
  | Json.obj kvs => some kvs.length
  | _ => none

/-- The previous-summary header of `_format_messages_for_compaction`,
effect only: `if existing_summary:` (an empty dict is falsy) and, when
`existing_summary.get("entities")` is truthy,
`len(existing_summary['entities'])` — which raises `TypeError` when
`entities` is a truthy unsized value (guarded only by truthiness, not by
type).  The other lines are f-string interpolations and cannot raise.  The
produced text feeds only the LLM prompt, whose response is already a
parameter of this embedding, so the text itself is dropped. -/
def formatSummaryBlock (existing : Option SummaryObj) : Except Unit Unit :=
  match existing with
  | some s =>
    if !s.isEmpty && truthyOpt (dictGet? s "entities") then
      match pyLen? ((dictGet? s "entities").getD Json.null) with
      | some _ => Except.ok ()
      | none => Except.error ()
    else Except.ok ()
  | none => Except.ok ()

/-- `MemoryCompactor.compact_messages` on well-typed message dicts.
`callResult` is the outcome of `self.llm_model.ainvoke` (its `.content`
string, or a raised error); `now` stands for `datetime.now().isoformat()`.
`_format_messages_for_compaction` runs BEFORE the `try`, so its
`TypeError` (a truthy unsized `entities` in the previous summary — the
message loop itself cannot raise on typed dicts) escapes as
`Except.error`; every failure inside the `try` degrades to the previous
summary.  The count written on success is
`len(messages) + existing_summary.get("compacted_message_count", 0) if
existing_summary else len(messages)` — Python's conditional binds last, so
the sum is taken when a previous summary exists. -/
def compactMessages (loads : String → Option Json) (messages : List Msg)
    (existing : Option SummaryObj) (callResult : Except Unit String)
    (now : String) : Except Unit SummaryObj :=
  if messages.isEmpty then Except.ok (existing.getD emptySummaryObj)
  else
    match formatSummaryBlock existing with
    | Except.error e => Except.error e
    | Except.ok _ =>
      Except.ok <|
        match callResult with
        | Except.error _ => existing.getD emptySummaryObj
        | Except.ok content =>
          match parseLLMResponse loads content with
          | Except.error _ => existing.getD emptySummaryObj
          | Except.ok parsed =>
            let count := messages.length + startIndexOf existing
            let untilTs :=
              match messages.getLast? with
              | some m => m.timestamp
              | none => now
            dictSet (dictSet (dictSet parsed "compacted_message_count" (Json.num count))
              "compacted_until_timestamp" (Json.str untilTs))
              "last_compaction_timestamp" (Json.str now)

theorem dictGet?_dictSet_self [DecidableEq κ] (o : List (κ × β)) (k : κ) (v : β) :
    dictGet? (dictSet o k v) k = some v := by
  induction o with
  | nil => simp [dictGet?, dictSet]
  | cons p rest ih =>
    obtain ⟨k', v'⟩ := p
    by_cases h : k' = k
    · simp [dictGet?, dictSet, h]
    · simp [dictGet?, dictSet, h, ih]

theorem dictGet?_dictSet_ne [DecidableEq κ] (o : List (κ × β)) (k k' : κ) (v : β)
    (h : k ≠ k') : dictGet? (dictSet o k v) k' = dictGet? o k' := by
  induction o with
  | nil => simp [dictGet?, dictSet, h]
  | cons p rest ih =>
    obtain ⟨k0, v0⟩ := p
    by_cases h0 : k0 = k
    · simp [dictGet?, dictSet, h0, h]
    · simp [dictGet?, dictSet, h0, ih]

/-- A stored summary whose `entities` value is a truthy unsized number —
storable, because `_parse_llm_response` checks only key presence. -/
def badSummary : SummaryObj :=
  [("entities", Json.num 5), ("prose_summary", Json.str "x"),
   ("compacted_message_count", Json.num 1)]

/-- C5 (counterexample): with an existing summary whose `entities` is the
truthy number `5`, `compact_messages` raises `TypeError` from
`len(existing_summary['entities'])` — before the `try`, even though the
model call itself failed — instead of returning the summary unchanged; and
such a summary is producible by the component itself, since
`_parse_llm_response` accepts `entities = 5` (it validates only key
presence). -/
theorem C5_compaction_raises_counterexample :
    compactMessages (fun _ => none) [mA] (some badSummary) (Except.error ()) "t9"
      = Except.error () ∧
    parseLLMResponse
        (fun _ => some (Json.obj [("entities", Json.num 5), ("prose_summary", Json.str "x")]))
        "\x7b\x7d"
      = Except.ok [("entities", Json.num 5), ("prose_summary", Json.str "x")] :=
  ⟨rfl, rfl⟩

/-- C5 (amended): `compact_messages` never raises — and degrades gracefully
— on every input whose existing summary keeps a sized `entities` value
(absent, falsy, or a string/list/dict, as the compactor itself intends to
store): whenever the model call fails, or the response yields no
extractable JSON, or the decoded JSON lacks `entities`/`prose_summary`
(every way `_parse_llm_response` can fail), the result is the supplied
summary exactly unchanged, and the empty summary (`entities = []`,
`prose_summary = ""`, `compacted_message_count = 0`) when none was
supplied.  Outside that domain the pre-`try` formatting raises `TypeError`
(see the counterexample). -/
theorem C5_compaction_degrades (loads : String → Option Json) (messages : List Msg)
    (existing : Option SummaryObj) (callResult : Except Unit String) (now : String)
    (hsafe : ∀ s ∈ existing, ∀ e, dictGet? s "entities" = some e →
      e.truthy = true → (pyLen? e).isSome = true)
    (h : ∀ content, callResult = Except.ok content →
      parseLLMResponse loads content = Except.error ()) :
    compactMessages loads messages existing callResult now
      = Except.ok (existing.getD emptySummaryObj) := by
  have hfmt : formatSummaryBlock existing = Except.ok () := by
    unfold formatSummaryBlock
    cases existing with
    | none => rfl
    | some s =>
      show (if (!List.isEmpty s && truthyOpt (dictGet? s "entities")) = true then
          match pyLen? ((dictGet? s "entities").getD Json.null) with
          | some _ => Except.ok ()
          | none => Except.error ()
        else Except.ok ()) = Except.ok ()
      by_cases hc : (!s.isEmpty && truthyOpt (dictGet? s "entities")) = true
      · rw [if_pos hc]
        have htr : truthyOpt (dictGet? s "entities") = true := by
          have h2 := hc
          simp only [Bool.and_eq_true] at h2
          exact h2.2
        cases hget : dictGet? s "entities" with
        | none => rw [hget] at htr; exact Bool.noConfusion htr
        | some e =>
          rw [hget] at htr
          have hlen := hsafe s (Option.mem_def.mpr rfl) e hget htr
          show (match pyLen? ((some e).getD Json.null) with
            | some _ => Except.ok () | none => Except.error ()) = Except.ok ()
          cases hsome : pyLen? e with
          | none => rw [hsome] at hlen; exact Bool.noConfusion hlen
          | some n =>
            show (match pyLen? e with
              | some _ => Except.ok () | none => Except.error ()) = Except.ok ()
            rw [hsome]
      · rw [if_neg hc]
  unfold compactMessages
  by_cases hm : messages.isEmpty
  · rw [if_pos hm]
  · rw [if_neg hm]
    simp only [hfmt]
    cases callResult with
    | error e => rfl
    | ok content =>
      have hp := h content rfl
      simp only [hp]

/-- A previously stored summary used in concrete scenarios. -/
def demoSummary : SummaryObj :=
  [("entities", Json.arr []), ("prose_summary", Json.str "old context"),
   ("compacted_message_count", Json.num 3)]

/-- C5 witness: a decoder that always fails leaves a supplied well-formed
summary untouched on a concrete prose response. -/
theorem C5_compaction_degrades_witness :
    compactMessages (fun _ => none) [mA] (some demoSummary)
        (Except.ok "the model answered in prose with no json") "t9"
      = Except.ok ((some demoSummary).getD emptySummaryObj) :=
  C5_compaction_degrades (fun _ => none) [mA] (some demoSummary)
    (Except.ok "the model answered in prose with no json") "t9"
    (by
      intro s hs e he ht
      rw [Option.mem_def] at hs
      cases hs
      have hcalc : dictGet? demoSummary "entities" = some (Json.arr []) := rfl
      rw [hcalc] at he
      cases he
      exact Bool.noConfusion ht)
    (by intro c hc; cases hc; rfl)

/-- C6: on every successful compaction of a non-empty batch, the stored
`compacted_message_count` is the batch length plus the previous summary's
count (`0` with no previous summary); the count never decreases, equals
`total - keep_recent` (so successive compacted ranges are contiguous and
stop exactly where the kept-recent window starts), and the batch is exactly
the chronological slice `[already_compacted, total - keep_recent)`, disjoint
from the kept-recent window. -/
theorem C6_compaction_count (loads : String → Option Json) (msgs : List Msg)
    (existing : Option SummaryObj) (keep : Nat) (resp now : String)
    (parsed : SummaryObj)
    (hparse : parseLLMResponse loads resp = Except.ok parsed)
    (hne : (inMemGetMessagesForCompaction msgs existing keep).1 ≠ [])
    (hfmt : formatSummaryBlock existing = Except.ok ()) :
    ∃ r, compactMessages loads (inMemGetMessagesForCompaction msgs existing keep).1
        existing (Except.ok resp) now = Except.ok r ∧
      sumCount r
        = (inMemGetMessagesForCompaction msgs existing keep).1.length + startIndexOf existing ∧
      startIndexOf existing ≤ sumCount r ∧
      sumCount r = msgs.length - keep ∧
      (inMemGetMessagesForCompaction msgs existing keep).1
        = pySlice msgs (startIndexOf existing) (msgs.length - keep) := by
  have hsplit : ¬ (max (startIndexOf existing) (msgs.length - keep) ≤ startIndexOf existing) := by
    intro hle
    apply hne
    unfold inMemGetMessagesForCompaction
    rw [if_pos hle]
  have hslice : (inMemGetMessagesForCompaction msgs existing keep).1
      = pySlice msgs (startIndexOf existing) (msgs.length - keep) := by
    unfold inMemGetMessagesForCompaction
    rw [if_neg hsplit]
    have hmax : max (startIndexOf existing) (msgs.length - keep) = msgs.length - keep := by
      omega
    rw [hmax]
  have hlen : (inMemGetMessagesForCompaction msgs existing keep).1.length
      = (msgs.length - keep) - startIndexOf existing := by
    rw [hslice]
    unfold pySlice
    simp only [List.length_take, List.length_drop]
    omega
  have hsum : ∀ (p : SummaryObj) (c : Nat) (t u : String),
      sumCount (dictSet (dictSet (dictSet p "compacted_message_count" (Json.num c))
        "compacted_until_timestamp" (Json.str t)) "last_compaction_timestamp" (Json.str u))
        = c := by
    intro p c t u
    unfold sumCount
    rw [dictGet?_dictSet_ne _ _ _ _ (by decide), dictGet?_dictSet_ne _ _ _ _ (by decide),
      dictGet?_dictSet_self]
  refine ⟨dictSet (dictSet (dictSet parsed "compacted_message_count"
      (Json.num ((inMemGetMessagesForCompaction msgs existing keep).1.length
        + startIndexOf existing)))
      "compacted_until_timestamp" (Json.str
        (match (inMemGetMessagesForCompaction msgs existing keep).1.getLast? with
          | some m => m.timestamp
          | none => now)))
      "last_compaction_timestamp" (Json.str now), ?_, ?_, ?_, ?_, hslice⟩
  · unfold compactMessages
    rw [if_neg (by simpa [List.isEmpty_iff] using hne)]
    simp only [hfmt, hparse]
  · rw [hsum]
  · rw [hsum]
    omega
  · rw [hsum, hlen]
    omega

/-- A decoder standing for `json.loads` that accepts the concrete witness
response below. -/
def loads0 : String → Option Json := fun _ =>
  some (Json.obj [("entities", Json.arr []), ("prose_summary", Json.str "s")])

/-- The object `loads0` decodes. -/
def parsed0 : SummaryObj := [("entities", Json.arr []), ("prose_summary", Json.str "s")]

/-- C6 witness: first compaction of a three-message history with
`keep_recent = 1` compacts exactly positions `[0, 2)` and stores count `2`. -/
theorem C6_compaction_count_witness :
    ∃ r, compactMessages loads0 (inMemGetMessagesForCompaction [mA, mB, mC] none 1).1
        none (Except.ok "\x7b\x7d") "t9" = Except.ok r ∧
      sumCount r
        = (inMemGetMessagesForCompaction [mA, mB, mC] none 1).1.length
            + startIndexOf (none : Option SummaryObj) ∧
      startIndexOf (none : Option SummaryObj) ≤ sumCount r ∧
      sumCount r = ([mA, mB, mC] : List Msg).length - 1 ∧
      (inMemGetMessagesForCompaction [mA, mB, mC] none 1).1
        = pySlice [mA, mB, mC] (startIndexOf (none : Option SummaryObj))
            (([mA, mB, mC] : List Msg).length - 1) :=
  C6_compaction_count loads0 [mA, mB, mC] none 1 "\x7b\x7d" "t9" parsed0 (by rfl) (by decide)
    (by rfl)

/-- `InMemoryConversationMemory.needs_compaction`: below the threshold never;
at or above it, only when no summary exists or
`total >= compacted_message_count + threshold`. -/
def inMemNeedsCompaction (msgs : List Msg) (summary : Option SummaryObj)
    (threshold : Nat) : Bool :=
  if msgs.length < threshold then false
  else
    match summary with
    | some s => if msgs.length < sumCount s + threshold then false else true
    | none => true

/-- `RedisConversationMemory.needs_compaction`: the same computation with
`LLEN` as the message total. -/
def redisNeedsCompaction (stored : List Msg) (summary : Option SummaryObj)
    (threshold : Nat) : Bool :=
  if stored.length < threshold then false
  else
    match summary with
    | some s => if stored.length < sumCount s + threshold then false else true
    | none => true

/-- Python runtime values that can reach the `messages` elements of
`compact_messages` from `_perform_compaction`: message dicts (the documented
call) and the two list components of the `(to_compact, to_keep)` tuple that
the call site actually passes unpacked-by-iteration. -/
inductive Dyn where
  | msgDict (m : Msg)
  | msgList (msgs : List Msg)

/-- The message loop of `_format_messages_for_compaction`, effect only: each
iteration calls `msg.get("role", ...)` and friends, which raise
`AttributeError` unless `msg` is a dict.  The produced text feeds only the
LLM prompt, whose response is already a parameter of this embedding, so the
text itself carries no further information and is dropped. -/
def formatMsgsDyn : List Dyn → Except Unit Unit
  | [] => Except.ok ()
  | Dyn.msgDict _ :: rest => formatMsgsDyn rest
  | Dyn.msgList _ :: _ => Except.error ()

/-- `_format_messages_for_compaction` over dynamically-typed `messages`:
the previous-summary header first (its `len(entities)` `TypeError`), then
the message loop (its `.get`-on-a-list `AttributeError`). -/
def formatDyn (messages : List Dyn) (existing : Option SummaryObj) :
    Except Unit Unit :=
  match formatSummaryBlock existing with
  | Except.error e => Except.error e
  | Except.ok _ => formatMsgsDyn messages

/-- `MemoryCompactor.compact_messages` over dynamically-typed `messages`.
`_format_messages_for_compaction` runs before the `try`, so its
`TypeError`/`AttributeError` escapes (`Except.error`); everything after it
is inside the `try` and degrades to the previous summary.  On the
(well-typed) success path `len(messages)` counts the received elements and
`messages[-1]` must be a dict — the wildcard timestamp arm is unreachable
because formatting has already validated every element. -/
def compactMessagesDyn (loads : String → Option Json) (messages : List Dyn)
    (existing : Option SummaryObj) (callResult : Except Unit String)
    (now : String) : Except Unit SummaryObj :=
  if messages.isEmpty then Except.ok (existing.getD emptySummaryObj)
  else
    match formatDyn messages existing with
    | Except.error e => Except.error e
    | Except.ok _ =>
      Except.ok <|
        match callResult with
        | Except.error _ => existing.getD emptySummaryObj
        | Except.ok content =>
          match parseLLMResponse loads content with
          | Except.error _ => existing.getD emptySummaryObj
          | Except.ok parsed =>
            let count := messages.length + startIndexOf existing
            let untilTs :=
              match messages.getLast? with
              | some (Dyn.msgDict m) => m.timestamp
              | _ => now
            dictSet (dictSet (dictSet parsed "compacted_message_count" (Json.num count))
              "compacted_until_timestamp" (Json.str untilTs))
              "last_compaction_timestamp" (Json.str now)

/-- The in-memory conversation state a compaction round acts on. -/
structure MemState where
  msgs : List Msg
  summary : Option SummaryObj

/-- `_perform_compaction` (`llm_model_node.py`; `agent_node.py` is
identical) over the in-memory backend: `to_compact` is bound to the WHOLE
`(to_compact, to_keep)` pair returned by `get_messages_for_compaction`, so
`if not to_compact:` never fires (a 2-tuple is truthy) and
`compact_messages` receives the pair itself — iterating it yields the two
lists.  Any exception is swallowed by the surrounding `except Exception`,
leaving the state unchanged. -/
def performCompaction (loads : String → Option Json) (st : MemState) (keep : Nat)
    (callResult : Except Unit String) (now : String) : MemState :=
  let pair := inMemGetMessagesForCompaction st.msgs st.summary keep
  let messagesArg := [Dyn.msgList pair.1, Dyn.msgList pair.2]
  match compactMessagesDyn loads messagesArg st.summary callResult now with
  | Except.error _ => st
  | Except.ok newSummary => ⟨st.msgs, some newSummary⟩

/-- The pair-shaped `messages` the buggy call site builds always makes
`compact_messages` raise in formatting, before the model call. -/
theorem compactMessagesDyn_two_lists (loads : String → Option Json) (a b : List Msg)
    (existing : Option SummaryObj) (callResult : Except Unit String) (now : String) :
    compactMessagesDyn loads [Dyn.msgList a, Dyn.msgList b] existing callResult now
      = Except.error () := by
  unfold compactMessagesDyn formatDyn
  rw [if_neg (show ¬ (([Dyn.msgList a, Dyn.msgList b].isEmpty) = true) from
    fun h => Bool.noConfusion h)]
  have hm : formatMsgsDyn [Dyn.msgList a, Dyn.msgList b] = Except.error () := rfl
  cases hs : formatSummaryBlock existing with
  | error e =>
    cases e
    simp only [hs]
  | ok u =>
    simp only [hs, hm]

/-- C4: the `needs_compaction` characterisation the claim states does hold
(first conjunct), but the compaction round it presupposes can never store a
summary: `_perform_compaction` hands the whole `(to_compact, to_keep)` pair
to `compact_messages`, whose message formatting raises `AttributeError`
before the model call, so `performCompaction` is the identity on the memory
state (second conjunct).  Consequently, at 20 messages with
`threshold = 20`, `keep_recent = 10`, `needs_compaction` is still true after
the round — every subsequent compacting-mode fetch triggers a fresh
Compactor invocation instead of the claimed idempotent no-op (third
conjunct). -/
theorem C4_compaction_never_stores :
    (∀ (msgs : List Msg) (summary : Option SummaryObj) (threshold : Nat),
      inMemNeedsCompaction msgs summary threshold = true ↔
        (threshold ≤ msgs.length ∧
          ∀ s ∈ summary, sumCount s + threshold ≤ msgs.length)) ∧
    (∀ (loads : String → Option Json) (st : MemState) (keep : Nat)
      (callResult : Except Unit String) (now : String),
      performCompaction loads st keep callResult now = st) ∧
    (inMemNeedsCompaction (List.replicate 20 mA) none 20 = true ∧
      performCompaction loads0 ⟨List.replicate 20 mA, none⟩ 10
          (Except.ok "\x7b\x7d") "t9" = ⟨List.replicate 20 mA, none⟩ ∧
      inMemNeedsCompaction
        (performCompaction loads0 ⟨List.replicate 20 mA, none⟩ 10
          (Except.ok "\x7b\x7d") "t9").msgs
        (performCompaction loads0 ⟨List.replicate 20 mA, none⟩ 10
          (Except.ok "\x7b\x7d") "t9").summary 20 = true) := by
  refine ⟨?_, ?_, ?_⟩
  · intro msgs summary threshold
    unfold inMemNeedsCompaction
    by_cases h1 : msgs.length < threshold
    · rw [if_pos h1]
      constructor
      · intro h
        exact Bool.noConfusion h
      · intro h
        exact absurd h.1 (by omega)
    · rw [if_neg h1]
      cases summary with
      | none =>
        show (true : Bool) = true ↔ _
        constructor
        · intro _
          refine ⟨by omega, ?_⟩
          intro s hs
          simp at hs
        · intro _
          rfl
      | some s =>
        show (if msgs.length < sumCount s + threshold then false else true) = true ↔ _
        by_cases h2 : msgs.length < sumCount s + threshold
        · rw [if_pos h2]
          constructor
          · intro h
            exact Bool.noConfusion h
          · intro h
            have := h.2 s rfl
            exact absurd this (by omega)
        · rw [if_neg h2]
          constructor
          · intro _
            refine ⟨by omega, ?_⟩
            intro s' hs'
            cases hs'
            omega
          · intro _
            rfl
  · intro loads st keep callResult now
    unfold performCompaction
    simp only [compactMessagesDyn_two_lists]
  · exact ⟨by decide, rfl, by decide⟩

/-! ### Aggregator node (C7)

Python runtime values flowing through the aggregator are abstracted as a
type `α` with decidable equality (Python values are hashable/comparable) and
a partial dict view `isDict`, exposing a dict's insertion-ordered entries;
`isDict v = none` means `isinstance(v, dict)` is false. -/

/-- The entries a single source output contributes to the merge: a dict's
own entries, else the single `{output: output}` entry written by
`merged[output] = output`. -/
def entriesOf (isDict : α → Option (List (α × α))) (v : α) : List (α × α) :=
  match isDict v with
  | some l => l
  | none => [(v, v)]

/-- Python `dict.update(m)`: assign each of `m`'s entries in order. -/
def dictUpdate [DecidableEq κ] (d : List (κ × β)) (m : List (κ × β)) : List (κ × β) :=
  m.foldl (fun acc p => dictSet acc p.1 p.2) d

/-- `AggregatorNode._merge_outputs` over the ready outputs in discovery
order: `merged.update(output)` for dicts, `merged[output] = output`
otherwise. -/
def mergeOutputs [DecidableEq α] (isDict : α → Option (List (α × α)))
    (outs : List α) : List (α × α) :=
  outs.foldl (fun merged out =>
    match isDict out with
    | some entries => dictUpdate merged entries
    | none => dictSet merged out out) []

/-- `AggregatorNode._aggregate_immediately`: the outputs of exactly those
source nodes that have recorded an output, in discovery order (the values
view of the `aggregated_outputs` dict it builds). -/
def aggregateImmediately (getOutput : String → Option α) (sources : List String) :
    List α :=
  sources.filterMap getOutput

/-- The value of the last entry for key `k` in an ordered entry list — the
"later contribution wins" reading of the merge. -/
def lastVal [DecidableEq κ] : List (κ × β) → κ → Option β
  | [], _ => none
  | (k0, v0) :: rest, k =>
    match lastVal rest k with
    | some v => some v
    | none => if k0 = k then some v0 else none

theorem dictGet?_dictSet [DecidableEq κ] (d : List (κ × β)) (k0 k : κ) (v0 : β) :
    dictGet? (dictSet d k0 v0) k = if k0 = k then some v0 else dictGet? d k := by
  induction d with
  | nil =>
    by_cases h : k0 = k <;> simp [dictGet?, dictSet, h]
  | cons p rest ih =>
    obtain ⟨k1, v1⟩ := p
    by_cases h1 : k1 = k0
    · subst h1
      by_cases h : k1 = k <;> simp [dictGet?, dictSet, h]
    · have hset : dictSet ((k1, v1) :: rest) k0 v0 = (k1, v1) :: dictSet rest k0 v0 := by
        simp [dictSet, h1]
      rw [hset]
      by_cases h2 : k1 = k
      · have hk0 : ¬ k0 = k := fun hh => h1 (h2.trans hh.symm)
        simp [dictGet?, h2, hk0]
      · simp [dictGet?, h2, ih]

theorem dictGet?_dictUpdate [DecidableEq κ] (m : List (κ × β)) :
    ∀ (d : List (κ × β)) (k : κ),
      dictGet? (dictUpdate d m) k
        = match lastVal m k with
          | some v => some v
          | none => dictGet? d k := by
  induction m with
  | nil => intro d k; rfl
  | cons p rest ih =>
    intro d k
    obtain ⟨k0, v0⟩ := p
    have hstep : dictUpdate d ((k0, v0) :: rest) = dictUpdate (dictSet d k0 v0) rest := rfl
    rw [hstep, ih]
    show _ = (match (match lastVal rest k with
      | some v => some v
      | none => if k0 = k then some v0 else none) with
      | some v => some v
      | none => dictGet? d k)
    cases hrest : lastVal rest k with
    | some v => rfl
    | none =>
      by_cases h : k0 = k
      · simp [dictGet?_dictSet, h]
      · simp [dictGet?_dictSet, h]

theorem lastVal_append [DecidableEq κ] (a b : List (κ × β)) (k : κ) :
    lastVal (a ++ b) k
      = match lastVal b k with
        | some v => some v
        | none => lastVal a k := by
  induction a with
  | nil =>
    cases hb : lastVal b k <;> simp [lastVal, hb]
  | cons p rest ih =>
    obtain ⟨k0, v0⟩ := p
    have hL : lastVal (((k0, v0) :: rest) ++ b) k
        = match lastVal (rest ++ b) k with
          | some v => some v
          | none => if k0 = k then some v0 else none := rfl
    have hR : lastVal ((k0, v0) :: rest) k
        = match lastVal rest k with
          | some v => some v
          | none => if k0 = k then some v0 else none := rfl
    rw [hL, ih, hR]
    cases hb : lastVal b k with
    | some v => rfl
    | none => cases lastVal rest k <;> rfl

theorem mergeOutputs_foldl [DecidableEq α] (isDict : α → Option (List (α × α))) :
    ∀ (outs : List α) (acc : List (α × α)) (k : α),
      dictGet? (outs.foldl (fun merged out =>
          match isDict out with
          | some entries => dictUpdate merged entries
          | none => dictSet merged out out) acc) k
        = match lastVal ((outs.map (entriesOf isDict)).flatten) k with
          | some v => some v
          | none => dictGet? acc k := by
  intro outs
  induction outs with
  | nil => intro acc k; rfl
  | cons out rest ih =>
    intro acc k
    have hstep : (match isDict out with
        | some entries => dictUpdate acc entries
        | none => dictSet acc out out) = dictUpdate acc (entriesOf isDict out) := by
      unfold entriesOf
      cases isDict out <;> rfl
    simp only [List.foldl_cons, hstep, List.map_cons, List.flatten_cons]
    rw [ih, lastVal_append, dictGet?_dictUpdate]
    cases lastVal ((rest.map (entriesOf isDict)).flatten) k <;> rfl

/-- C7: for the merge strategy over distinct declared sources, looking up
any key in the Aggregator's merged result yields exactly the latest
contribution for that key among the ready sources' outputs in discovery
order — dict outputs contribute their own entries (shallow union, later
source wins), and every non-dict output contributes an `{output: output}`
entry. -/
theorem C7_aggregator_merge [DecidableEq α] (isDict : α → Option (List (α × α)))
    (getOutput : String → Option α) (sources : List String) (k : α)
    (_hnodup : sources.Nodup) :
    dictGet? (mergeOutputs isDict (aggregateImmediately getOutput sources)) k
      = lastVal (((aggregateImmediately getOutput sources).map (entriesOf isDict)).flatten) k := by
  unfold mergeOutputs
  rw [mergeOutputs_foldl]
  cases lastVal (((aggregateImmediately getOutput sources).map (entriesOf isDict)).flatten) k
    <;> rfl

/-- A concrete dict view for the C7 witness. -/
def isDictW : Nat → Option (List (Nat × Nat)) := fun n =>
  if n = 100 then some [(1, 2), (3, 4)]
  else if n = 200 then some [(1, 20)]
  else none

/-- Concrete ready outputs for the C7 witness: source `"b"` has produced no
output yet. -/
def getOutputW : String → Option Nat := fun s =>
  if s = "a" then some 100
  else if s = "c" then some 200
  else none

/-- C7 witness: with two ready dict sources colliding on key `1`, the later
source (discovery order) wins. -/
theorem C7_aggregator_merge_witness :
    dictGet? (mergeOutputs isDictW (aggregateImmediately getOutputW ["a", "b", "c"])) 1
      = some 20 :=
  (C7_aggregator_merge isDictW getOutputW ["a", "b", "c"] 1 (by decide)).trans (by decide)

/-! ### Durable key construction (C9) -/

/-- `RedisConversationMemory._get_tenant_prefix`: `f"tenant:{tenant_id}:"`
under a tenant context, the empty string without one.  The ambient
`get_tenant_context()` result is the `Option String` argument. -/
def tenantPref : Option String → String
  | some t => "tenant:" ++ t ++ ":"
  | none => ""

/-- `self._message_key = f"{tenant_prefix}:conversation:{thread_id}:messages"`. -/
def messageKey (tenant : Option String) (threadId : String) : String :=
  tenantPref tenant ++ ":conversation:" ++ threadId ++ ":messages"

/-- `self._metadata_key = f"{tenant_prefix}:conversation:{thread_id}:metadata"`. -/
def metadataKey (tenant : Option String) (threadId : String) : String :=
  tenantPref tenant ++ ":conversation:" ++ threadId ++ ":metadata"

/-- `self._conversation_key = f"{tenant_prefix}:conversation:{thread_id}:info"`. -/
def infoKey (tenant : Option String) (threadId : String) : String :=
  tenantPref tenant ++ ":conversation:" ++ threadId ++ ":info"

theorem colon_sep_inj :
    ∀ (a b r1 r2 : List Char), ':' ∉ a → ':' ∉ b →
      a ++ ':' :: r1 = b ++ ':' :: r2 → a = b := by
  intro a
  induction a with
  | nil =>
    intro b r1 r2 _ hb h
    cases b with
    | nil => rfl
    | cons d bs =>
      rw [List.nil_append, List.cons_append] at h
      injection h with h1 _
      exact absurd (List.mem_cons_self d bs) (h1 ▸ hb)
  | cons c as ih =>
    intro b r1 r2 ha hb h
    cases b with
    | nil =>
      rw [List.cons_append, List.nil_append] at h
      injection h with h1 _
      exact absurd (h1 ▸ List.mem_cons_self c as) ha
    | cons d bs =>
      rw [List.cons_append, List.cons_append] at h
      injection h with h1 h2
      have ha' : ':' ∉ as := fun hm => ha (List.mem_cons_of_mem _ hm)
      have hb' : ':' ∉ bs := fun hm => hb (List.mem_cons_of_mem _ hm)
      rw [h1, ih bs r1 r2 ha' hb' h2]

/-- Two keys built under distinct colon-free tenant ids are always distinct,
whatever follows the tenant segment. -/
theorem tenant_key_ne (t1 t2 r1 r2 : String) (hne : t1 ≠ t2)
    (hc1 : ':' ∉ t1.data) (hc2 : ':' ∉ t2.data) :
    "tenant:" ++ (t1 ++ (":" ++ r1)) ≠ "tenant:" ++ (t2 ++ (":" ++ r2)) := by
  intro h
  apply hne
  apply String.ext
  have hd := congrArg String.data h
  simp only [String.data_append] at hd
  have hd' := List.append_cancel_left hd
  rw [List.singleton_append, List.singleton_append] at hd'
  exact colon_sep_inj t1.data t2.data r1.data r2.data hc1 hc2 hd'

/-- C9 (counterexample): with colon-bearing identifiers the claimed
disjointness for arbitrary thread ids fails — tenant `"a"` with thread
`"b::conversation:c"` and tenant `"a::conversation:b"` with thread `"c"`
produce the same message key. -/
theorem C9_tenant_keys_counterexample :
    messageKey (some "a") "b::conversation:c"
      = messageKey (some "a::conversation:b") "c" ∧
    ("a" : String) ≠ "a::conversation:b" := by
  constructor
  · decide
  · decide

/-- C9 (amended): for any two distinct colon-free tenant ids and any thread
ids whatsoever, the three durable keys built under one tenant context are
disjoint from the three built under the other; and keys built with no
tenant context never carry a tenant namespace — they differ from every
tenant-prefixed key.  (With colons allowed inside tenant ids the original
universal claim is refuted by the counterexample.) -/
theorem C9_tenant_isolation (t1 t2 : String) (hne : t1 ≠ t2)
    (hc1 : ':' ∉ t1.data) (hc2 : ':' ∉ t2.data) :
    (∀ th1 th2 : String,
      ∀ k1 ∈ [messageKey (some t1) th1, metadataKey (some t1) th1, infoKey (some t1) th1],
      ∀ k2 ∈ [messageKey (some t2) th2, metadataKey (some t2) th2, infoKey (some t2) th2],
        k1 ≠ k2) ∧
    (∀ t th1 th2 : String,
      ∀ k1 ∈ [messageKey none th1, metadataKey none th1, infoKey none th1],
      ∀ k2 ∈ [messageKey (some t) th2, metadataKey (some t) th2, infoKey (some t) th2],
        k1 ≠ k2) := by
  constructor
  · intro th1 th2 k1 hk1 k2 hk2
    simp only [List.mem_cons, List.mem_singleton, List.not_mem_nil, or_false] at hk1 hk2
    rcases hk1 with h1 | h1 | h1 <;> rcases hk2 with h2 | h2 | h2 <;>
      · subst h1; subst h2
        simp only [messageKey, metadataKey, infoKey, tenantPref, String.append_assoc]
        exact tenant_key_ne t1 t2 _ _ hne hc1 hc2
  · intro t th1 th2 k1 hk1 k2 hk2
    simp only [List.mem_cons, List.mem_singleton, List.not_mem_nil, or_false] at hk1 hk2
    have hhead : ∀ k2' ∈ [messageKey (some t) th2, metadataKey (some t) th2, infoKey (some t) th2],
        k2'.data.head? = some 't' := by
      intro k2' hk2'
      simp only [List.mem_cons, List.mem_singleton, List.not_mem_nil, or_false] at hk2'
      rcases hk2' with h | h | h <;> · subst h; rfl
    have hk2head : k2.data.head? = some 't' := hhead k2 (by
      simp only [List.mem_cons, List.mem_singleton]
      tauto)
    have hk1head : k1.data.head? = some ':' := by
      rcases hk1 with h | h | h <;> · subst h; rfl
    intro heq
    rw [heq, hk2head] at hk1head
    injection hk1head with hc
    exact absurd hc (by decide)

/-- C9 witness: concrete distinct colon-free tenants with colon-bearing
thread ids still get disjoint message keys. -/
theorem C9_tenant_isolation_witness :
    messageKey (some "acme") "x:y" ≠ messageKey (some "globex") "x:y" :=
  (C9_tenant_isolation "acme" "globex" (by decide) (by decide) (by decide)).1
    "x:y" "x:y" _ (by simp) _ (by simp)

/-! ### Workflow execution state (C10) -/

/-- The slice of `WorkflowState` that `set_node_output` touches:
`node_outputs` (a dict) and `execution_path` (an ordered list).  Output
values are abstracted as `α`. -/
structure WState (α : Type) where
  nodeOutputs : List (String × α)
  executionPath : List String

/-- `WorkflowState.set_node_output`: unconditionally assign
`node_outputs[node_id] = output`, then append `node_id` to
`execution_path` only if it is not already there. -/
def setNodeOutput (st : WState α) (nodeId : String) (output : α) : WState α :=
  ⟨dictSet st.nodeOutputs nodeId output,
    if nodeId ∈ st.executionPath then st.executionPath
    else st.executionPath ++ [nodeId]⟩

/-- A fresh `WorkflowState` (empty `node_outputs`, empty `execution_path`). -/
def initWState : WState α := ⟨[], []⟩

/-- A sequence of `set_node_output` calls against a fresh state. -/
def runCalls (calls : List (String × α)) : WState α :=
  calls.foldl (fun st c => setNodeOutput st c.1 c.2) initWState

theorem runCalls_path_nodup (calls : List (String × α)) :
    ∀ st : WState α, st.executionPath.Nodup →
      (calls.foldl (fun st c => setNodeOutput st c.1 c.2) st).executionPath.Nodup := by
  induction calls with
  | nil => intro st h; exact h
  | cons c rest ih =>
    intro st h
    apply ih
    unfold setNodeOutput
    by_cases hmem : c.1 ∈ st.executionPath
    · simpa [hmem] using h
    · simp only [hmem, if_false]
      simp [List.nodup_append, h, hmem]

theorem runCalls_lookup (calls : List (String × α)) :
    ∀ (st : WState α) (k : String),
      dictGet? (calls.foldl (fun st c => setNodeOutput st c.1 c.2) st).nodeOutputs k
        = match lastVal calls k with
          | some v => some v
          | none => dictGet? st.nodeOutputs k := by
  induction calls with
  | nil => intro st k; rfl
  | cons c rest ih =>
    intro st k
    obtain ⟨nodeId, v⟩ := c
    rw [List.foldl_cons, ih]
    show _ = (match (match lastVal rest k with
      | some w => some w
      | none => if nodeId = k then some v else none) with
      | some w => some w
      | none => dictGet? st.nodeOutputs k)
    cases lastVal rest k with
    | some w => rfl
    | none =>
      by_cases h : nodeId = k <;> simp [setNodeOutput, dictGet?_dictSet, h]

/-- C10 (counterexample): an output already recorded for a node IS recorded
again by a second `set_node_output` call — the dict assignment
overwrites. -/
theorem C10_write_once_counterexample :
    dictGet? (setNodeOutput (setNodeOutput (initWState : WState Nat) "n" 1) "n" 2).nodeOutputs "n"
        = some 2 ∧
    (2 : Nat) ≠ 1 := by
  constructor
  · decide
  · decide

/-- C10 (amended): for every sequence of `set_node_output` calls on a fresh
`WorkflowState`, each node id appears at most once in `execution_path`, and
`node_outputs` holds, for every node id, the value of the LATEST call for
that id — repeated calls overwrite the recorded output (last write wins)
rather than being ignored. -/
theorem C10_set_node_output (α : Type) (calls : List (String × α)) :
    (runCalls calls).executionPath.Nodup ∧
    ∀ nodeId, dictGet? (runCalls calls).nodeOutputs nodeId = lastVal calls nodeId := by
  constructor
  · exact runCalls_path_nodup calls initWState (by simp [initWState])
  · intro nodeId
    unfold runCalls
    rw [runCalls_lookup]
    cases lastVal calls nodeId <;> rfl

/-! ### Chat history, compacted-summary formatting and backend
interchangeability (C8) -/

/-- Python slice `xs[-k:]`: the whole list when `k = 0` (`-0` is `0`), else
the last `k` elements. -/
def pyTail (xs : List α) (k : Nat) : List α :=
  if k = 0 then xs else xs.drop (xs.length - k)

/-- `InMemoryConversationMemory.get_chat_history` (list form):
`self.messages[-max_messages:]`. -/
def inMemGetChatHistory (msgs : List Msg) (maxMessages : Nat) : List Msg :=
  pyTail msgs maxMessages

/-- `RedisConversationMemory.get_chat_history` (list form): delegates to
`get_messages`. -/
def redisGetChatHistory (stored : List Msg) (maxMessages : Nat) : List Msg :=
  redisGetMessages stored maxMessages

/-- The single-quote character (used by Python `repr`). -/
def sq : String := String.mk [Char.ofNat 39]

mutual

/-- Python `repr` of a JSON-derived value, as f-string interpolation uses for
elements inside containers. -/
def jrepr : Json → String
  | Json.null => "None"
  | Json.bool b => if b then "True" else "False"
  | Json.num n => toString n
  | Json.str s => sq ++ s ++ sq
  | Json.arr xs => "[" ++ String.intercalate ", " (jreprList xs) ++ "]"
  | Json.obj kvs => "\x7b" ++ String.intercalate ", " (jreprObj kvs) ++ "\x7d"

def jreprList : List Json → List String
  | [] => []
  | x :: rest => jrepr x :: jreprList rest

def jreprObj : List (String × Json) → List String
  | [] => []
  | (k, v) :: rest => (sq ++ k ++ sq ++ ": " ++ jrepr v) :: jreprObj rest

end

/-- Python `str` of a JSON-derived value (f-string interpolation). -/
def jstr : Json → String
  | Json.str s => s
  | j => jrepr j

/-- One entity line of `_format_compacted_summary`: dispatch on
`entity.get("type", "fact")` (`person` / `preference` / anything else);
`entity.get` on a non-dict element raises `AttributeError`
(`Except.error`). -/
def renderEntity (e : Json) : Except Unit String :=
  match e with
  | Json.obj kvs =>
    Except.ok <|
      match (dictGet? kvs "type").getD (Json.str "fact") with
      | Json.str s =>
        if s = "person" then
          "- Person: " ++ jstr ((dictGet? kvs "name").getD (Json.str "Unknown"))
        else if s = "preference" then
          "- User preference: " ++ jstr ((dictGet? kvs "description").getD (Json.str ""))
        else "- " ++ jstr ((dictGet? kvs "description").getD (Json.str ""))
      | _ => "- " ++ jstr ((dictGet? kvs "description").getD (Json.str ""))
  | _ => Except.error ()

/-- The `summary["entities"][:20]` loop: a JSON array is sliced and each
element rendered (first failure aborts); slicing a string iterates its
characters, each lacking `.get` (`AttributeError` unless empty); any other
truthy value cannot be sliced (`TypeError`). -/
def renderEntities (ents : Json) : Except Unit (List String) :=
  match ents with
  | Json.arr xs => (xs.take 20).mapM renderEntity
  | Json.str s => if s.isEmpty then Except.ok [] else Except.error ()
  | _ => Except.error ()

/-- `_format_compacted_summary` (verbatim-identical method bodies in the two
backend classes): header, optional context line, optional key-information
block (first 20 entities), optional count line, joined with newlines. -/
def formatCompactedSummary (s : SummaryObj) : Except Unit String := do
  let base := ["[Conversation History Summary]"]
  let parts1 :=
    if truthyOpt (dictGet? s "prose_summary") then
      base ++ ["\nContext: " ++ jstr ((dictGet? s "prose_summary").getD Json.null)]
    else base
  let parts2 ←
    if truthyOpt (dictGet? s "entities") then do
      let lines ← renderEntities ((dictGet? s "entities").getD Json.null)
      pure (parts1 ++ ["\nKey Information:"] ++ lines)
    else pure parts1
  let parts3 :=
    if truthyOpt (dictGet? s "compacted_message_count") then
      parts2 ++ ["\n(Summary represents "
        ++ jstr ((dictGet? s "compacted_message_count").getD Json.null)
        ++ " earlier messages)"]
    else parts2
  pure (String.intercalate "\n" parts3)

/-- An element of a `get_chat_history_with_compaction` result: the message
dicts plus the synthetic summary message, whose `timestamp` key holds
`summary.get("last_compaction_timestamp")` (possibly `None`). -/
structure ChatEntry where
  role : String
  content : String
  messageType : String
  timestamp : Option Json

/-- A stored message as a chat-history dict. -/
def msgEntry (m : Msg) : ChatEntry :=
  ⟨m.role, m.content, m.messageType, some (Json.str m.timestamp)⟩

/-- The guard `if summary and (summary.get("prose_summary") or
summary.get("entities")):` — identical in both backends. -/
def summaryCond (summary : Option SummaryObj) : Bool :=
  match summary with
  | some s => !s.isEmpty && (truthyOpt (dictGet? s "prose_summary")
      || truthyOpt (dictGet? s "entities"))
  | none => false

/-- `InMemoryConversationMemory.get_chat_history_with_compaction` (list
form): prepend the rendered summary as a synthetic `system` message; the
in-memory method has no `try`, so a formatting exception propagates. -/
def inMemWithCompaction (msgs : List Msg) (summary : Option SummaryObj)
    (maxMessages : Nat) : Except Unit (List ChatEntry) :=
  let recent := (inMemGetMessages msgs maxMessages).map msgEntry
  if summaryCond summary then
    match summary with
    | some s =>
      match formatCompactedSummary s with
      | Except.error e => Except.error e
      | Except.ok content =>
        Except.ok (⟨"system", content, "compacted_summary",
          dictGet? s "last_compaction_timestamp"⟩ :: recent)
    | none => Except.ok recent
  else Except.ok recent

/-- `RedisConversationMemory.get_chat_history_with_compaction` (list form):
the same construction inside a `try` whose `except` returns `[]`. -/
def redisWithCompaction (stored : List Msg) (summary : Option SummaryObj)
    (maxMessages : Nat) : List ChatEntry :=
  let recent := (redisGetMessages stored maxMessages).map msgEntry
  if summaryCond summary then
    match summary with
    | some s =>
      match formatCompactedSummary s with
      | Except.error _ => []
      | Except.ok content =>
        ⟨"system", content, "compacted_summary",
          dictGet? s "last_compaction_timestamp"⟩ :: recent
    | none => recent
  else recent

theorem inMemGetChatHistory_eq (msgs : List Msg) (N : Nat) :
    inMemGetChatHistory msgs N = inMemGetMessages msgs N := by
  unfold inMemGetChatHistory pyTail inMemGetMessages
  by_cases h : N = 0
  · simp [h]
  · simp [h, lastN]

/-- C8 (counterexample): the backends are not interchangeable at a
non-positive token budget — the in-memory backend raises `ValueError` while
the durable one returns an empty history. -/
theorem C8_backend_counterexample :
    inMemWithinTokens String.length [mA] 0 = Except.error () ∧
    redisWithinTokens String.length (lpushAll [mA]) 0 = [] :=
  ⟨rfl, rfl⟩

/-- C8 (amended): over an idealized key-value store the two backends agree
on `get_messages` and `get_chat_history` (no role filter, any
`max_messages`), `needs_compaction`, `get_messages_for_compaction` whenever
`keep_recent ≥ 1`, `get_chat_history_with_compaction` whenever the
in-memory call returns (rather than raising on a malformed stored summary),
and `get_chat_history_within_tokens` whenever the budget is positive and
the history holds at most 50 messages.  They genuinely differ on the
claim's edge cases: a non-positive budget (raise vs `[]`), histories beyond
the durable backend's 50-message fetch window, `keep_recent = 0`, and
role-filtered reads (the durable backend filters only within the newest
`max_messages`). -/
theorem C8_backend_equivalence (msgs : List Msg) (summary : Option SummaryObj)
    (counter : String → Nat) (N keep threshold : Nat) (budget : Int) :
    redisGetMessages (lpushAll msgs) N = inMemGetMessages msgs N ∧
    redisGetChatHistory (lpushAll msgs) N = inMemGetChatHistory msgs N ∧
    redisNeedsCompaction (lpushAll msgs) summary threshold
      = inMemNeedsCompaction msgs summary threshold ∧
    (1 ≤ keep →
      redisGetMessagesForCompaction (lpushAll msgs) summary keep
        = inMemGetMessagesForCompaction msgs summary keep) ∧
    (∀ l, inMemWithCompaction msgs summary N = Except.ok l →
      redisWithCompaction (lpushAll msgs) summary N = l) ∧
    (0 < budget → msgs.length ≤ 50 →
      inMemWithinTokens counter msgs budget
        = Except.ok (redisWithinTokens counter (lpushAll msgs) budget)) := by
  have hget := redisGetMessages_eq_inMem msgs
  refine ⟨hget N, ?_, ?_, ?_, ?_, ?_⟩
  · rw [inMemGetChatHistory_eq]
    exact hget N
  · rw [lpushAll_eq_reverse]
    simp only [redisNeedsCompaction, inMemNeedsCompaction, List.length_reverse]
  · intro hkeep
    have hsnd : redisGetMessages (lpushAll msgs) keep
        = (if 0 < keep then lastN msgs keep else []) := by
      rw [hget keep, if_pos (by omega)]
      unfold inMemGetMessages
      rw [if_pos (by omega)]
    rw [lpushAll_eq_reverse] at hsnd ⊢
    simp only [redisGetMessagesForCompaction, inMemGetMessagesForCompaction,
      List.length_reverse]
    by_cases hcase : max (startIndexOf summary) (msgs.length - keep) ≤ startIndexOf summary
    · rw [if_pos hcase, if_pos hcase, hsnd]
    · rw [if_neg hcase, if_neg hcase, hsnd]
      have hmax : max (startIndexOf summary) (msgs.length - keep) = msgs.length - keep := by
        omega
      rw [hmax]
      have hrt := reversed_lrange_slice msgs (startIndexOf summary) (msgs.length - keep)
        (by omega) (by omega)
      rw [hrt]
  · intro l hl
    have hrecent : (redisGetMessages (lpushAll msgs) N).map msgEntry
        = (inMemGetMessages msgs N).map msgEntry := by rw [hget N]
    unfold inMemWithCompaction at hl
    unfold redisWithCompaction
    by_cases hcond : summaryCond summary
    · rw [if_pos hcond] at hl ⊢
      cases summary with
      | none => simp [summaryCond] at hcond
      | some s =>
        cases hfmt : formatCompactedSummary s with
        | error e =>
          simp only [hfmt] at hl
          exact Except.noConfusion hl
        | ok content =>
          simp only [hfmt] at hl ⊢
          have hl' := Except.ok.inj hl
          rw [hrecent, hl']
    · rw [if_neg hcond] at hl ⊢
      have hl' := Except.ok.inj hl
      rw [hrecent, hl']
  · intro hb hlen
    have hnotle : ¬ (budget ≤ 0) := by omega
    unfold inMemWithinTokens redisWithinTokens
    rw [if_neg hnotle, if_neg hnotle]
    have hbatch : lrange (lpushAll msgs) 0 ((50 : Int) - 1) = msgs.reverse := by
      rw [lpushAll_eq_reverse]
      have h50 : ((50 : Nat) : Int) - 1 = (50 : Int) - 1 := by norm_num
      rw [← h50, lrange_zero_take _ 50 (by omega)]
      exact List.take_of_length_le (by simpa using hlen)
    rw [hbatch]
    by_cases hnil : msgs = []
    · subst hnil
      rfl
    · rw [if_neg (by simpa [List.isEmpty_iff] using hnil)]

/-- C8 witness: concrete agreement of both backends on a compaction split
and a token-budget read. -/
theorem C8_backend_equivalence_witness :
    redisGetMessagesForCompaction (lpushAll [mA, mB, mC]) (some demoSummary) 1
      = inMemGetMessagesForCompaction [mA, mB, mC] (some demoSummary) 1 ∧
    inMemWithinTokens String.length [mA, mB, mC] 100
      = Except.ok (redisWithinTokens String.length (lpushAll [mA, mB, mC]) 100) := by
  have h := C8_backend_equivalence [mA, mB, mC] (some demoSummary) String.length 2 1 2 100
  exact ⟨h.2.2.2.1 (by omega), h.2.2.2.2.2 (by omega) (by decide)⟩

end Genassist
